import Mathlib

/-!
Verification of the Minecraft server-list-ping Cloudflare worker.

The development shallowly embeds the repository's pure core:
the VarInt codec, outbound packet building (src/minecraft.ts),
inbound frame reassembly (readPacket, src/minecraft.ts),
SRV record parsing and weighted selection (src/srv.ts),
and the target-selection plumbing of the worker entry point.

Byte buffers are `List Nat` (each element a byte value), strings are `String`
with an explicit UTF-8 encoder, and the random draw of the SRV selection and
the outcome of the DNS-over-HTTPS exchange are passed in as parameters.
-/

/-- The two distinguishable failure outcomes of VarInt decoding:
`needMoreData` when the buffer ends before a terminating byte,
`tooLong` when a decode would consume more than 5 bytes. -/
inductive DecodeError where
  | needMoreData
  | tooLong
deriving DecidableEq, Repr

/-- Modelled from the spec: the VarInt decoder supplied by the `leb` dependency,
which is not part of the repository. Reads 7 payload bits per byte, least
significant group first, high bit signalling continuation; `acc` is the value
gathered so far and `count` the number of bytes consumed. Fails with
`needMoreData` when the bytes run out before a terminating byte and with
`tooLong` when a sixth byte would be consumed. -/
def decodeVarIntGo : List Nat → Nat → Nat → Except DecodeError (Nat × Nat)
  | [], _, _ => .error .needMoreData
  | b :: rest, acc, count =>
    if 5 ≤ count then .error .tooLong
    else if b < 128 then .ok (acc + b % 128 * 128 ^ count, count + 1)
    else decodeVarIntGo rest (acc + b % 128 * 128 ^ count) (count + 1)

/-- Modelled from the spec: `decode(buffer, offset) -> (value, nextIndex)`,
the VarInt decode entry point mirroring `leb.decodeInt32`. -/
def decodeVarInt (buffer : List Nat) (offset : Nat) : Except DecodeError (Nat × Nat) :=
  match decodeVarIntGo (buffer.drop offset) 0 0 with
  | .error e => .error e
  | .ok (value, count) => .ok (value, offset + count)

/-- Modelled from the spec: the VarInt encoder, emitting minimal 7-bit groups,
least significant first, high bit set on every byte except the last. The first
argument is structural fuel; five groups cover every 32-bit value. -/
def encodeVarIntGo : Nat → Nat → List Nat
  | 0, value => [value % 128]
  | fuel + 1, value =>
    if value < 128 then [value] else (value % 128 + 128) :: encodeVarIntGo fuel (value / 128)

/-- Modelled from the spec: `encode(value) -> bytes` (src/minecraft.ts line 74
delegates to the leb dependency, absent from the repository). -/
def encodeVarInt (value : Nat) : List Nat :=
  encodeVarIntGo 5 value

/-- UTF-8 encoding of one character. -/
def utf8EncodeChar (c : Char) : List Nat :=
  let n := c.toNat
  if n < 128 then [n]
  else if n < 2048 then [192 + n / 64, 128 + n % 64]
  else if n < 65536 then [224 + n / 4096, 128 + n / 64 % 64, 128 + n % 64]
  else [240 + n / 262144, 128 + n / 4096 % 64, 128 + n / 64 % 64, 128 + n % 64]

/-- The bytes of `Buffer.from(value, 'utf8')`. -/
def utf8Bytes (s : String) : List Nat :=
  (s.data.map utf8EncodeChar).flatten

/-- src/minecraft.ts `encodeString`: VarInt byte length followed by the UTF-8 bytes. -/
def encodeString (value : String) : List Nat :=
  let encoded := utf8Bytes value
  encodeVarInt encoded.length ++ encoded

/-- src/minecraft.ts `buildPacket`: VarInt(len(body)) followed by
body = VarInt(packetId) followed by the payload (the source's optional payload
is the empty list here). -/
def buildPacket (packetId : Nat) (payload : List Nat) : List Nat :=
  let body := encodeVarInt packetId ++ payload
  encodeVarInt body.length ++ body

/-- src/minecraft.ts constant NEXT_STATE_STATUS. -/
def NEXT_STATE_STATUS : Nat := 1

/-- src/minecraft.ts constant PACKET_HANDSHAKE. -/
def PACKET_HANDSHAKE : Nat := 0

/-- src/minecraft.ts constant DEFAULT_PROTOCOL_VERSION (Minecraft 1.20.4). -/
def DEFAULT_PROTOCOL_VERSION : Nat := 765

/-- `portBuffer.writeUInt16BE(port, 0)`: two big-endian bytes. -/
def uint16BE (port : Nat) : List Nat :=
  [port / 256 % 256, port % 256]

/-- src/minecraft.ts `buildHandshakePacket`. -/
def buildHandshakePacket (serverAddress : String) (port : Nat) (protocolVersion : Nat) :
    List Nat :=
  buildPacket PACKET_HANDSHAKE
    (encodeVarInt protocolVersion ++ encodeString serverAddress ++ uint16BE port ++
      encodeVarInt NEXT_STATE_STATUS)

/-- The only failure `readPacket` can surface: the transport ended before a
full frame was assembled (src/minecraft.ts line 142). -/
inductive ReadError where
  | connectionClosed
deriving DecidableEq, Repr

/-- src/minecraft.ts `readPacket` loop body: append the received chunk to the
buffer, try to decode the leading length VarInt — the source wraps the decode
in try/catch and `continue`s on any failure — and once
`headerSize + packetLength` bytes are buffered return exactly that slice.
The chunk list stands for the successive results of `reader.read()`; when it
is exhausted the stream is done and the read fails. (The source's
`packetLength === undefined` re-check after a successful decode is vacuous.) -/
def readPacketGo : List Nat → List (List Nat) → Except ReadError (List Nat)
  | _, [] => .error .connectionClosed
  | buffer, chunk :: rest =>
    match decodeVarInt (buffer ++ chunk) 0 with
    | .error _ => readPacketGo (buffer ++ chunk) rest
    | .ok (packetLength, headerSize) =>
      if headerSize + packetLength ≤ (buffer ++ chunk).length then
        .ok ((buffer ++ chunk).take (headerSize + packetLength))
      else readPacketGo (buffer ++ chunk) rest

/-- src/minecraft.ts `readPacket`, starting from the empty buffer. -/
def readPacket (chunks : List (List Nat)) : Except ReadError (List Nat) :=
  readPacketGo [] chunks

/-- A well-formed inbound packet: its leading length VarInt decodes to
`packetLength` with `headerSize` bytes, and the buffer holds exactly
`headerSize + packetLength` bytes. -/
def ValidPacket (packet : List Nat) (packetLength headerSize : Nat) : Prop :=
  decodeVarInt packet 0 = .ok (packetLength, headerSize) ∧
    packet.length = headerSize + packetLength

/-- src/srv.ts `ParsedSrvRecord`. -/
structure ParsedSrvRecord where
  priority : Int
  weight : Int
  port : Nat
  target : String
deriving DecidableEq, Repr

/-- Leading decimal digits of a character list, or `none` when there are none
(the NaN case of `Number.parseInt`). -/
def parseDigits (chars : List Char) : Option Nat :=
  let digits := chars.takeWhile (fun c => c.isDigit)
  if digits.isEmpty then none
  else some (digits.foldl (fun acc c => acc * 10 + (c.toNat - 48)) 0)

/-- `Number.parseInt(str, 10)` on a whitespace-free token: optional sign, then
leading decimal digits; trailing non-digits are ignored; `none` is NaN. -/
def parseJsInt (s : String) : Option Int :=
  match s.data with
  | '-' :: rest => (parseDigits rest).map (fun n => -(n : Int))
  | '+' :: rest => (parseDigits rest).map (fun n => (n : Int))
  | chars => (parseDigits chars).map (fun n => (n : Int))

/-- `targetRaw.replace(/\.$/, '')`: strip one trailing dot. -/
def stripTrailingDot (s : String) : String :=
  if s.endsWith "." then s.dropRight 1 else s

/-- src/srv.ts `DnsAnswer`. -/
structure DnsAnswer where
  name : String
  type : Nat
  TTL : Nat
  data : String
deriving Repr

/-- src/srv.ts constant SRV_RECORD_TYPE. -/
def SRV_RECORD_TYPE : Nat := 33

/-- src/srv.ts `parseSrvRecord`: reject non-SRV answers, split the data on
whitespace, parse priority/weight/port, strip the target's trailing dot,
validate (integer fields, non-empty target, port in 1..65535) and coerce a
negative weight to 0. -/
def parseSrvRecord (answer : DnsAnswer) : Option ParsedSrvRecord :=
  if answer.type ≠ SRV_RECORD_TYPE then none
  else
    let fields := (answer.data.trim.split (fun c => c.isWhitespace)).filter
      (fun f => ¬ f.isEmpty)
    match fields[0]?.bind parseJsInt, fields[1]?.bind parseJsInt,
        fields[2]?.bind parseJsInt, fields[3]?.map stripTrailingDot with
    | some priority, some weight, some port, some target =>
      if target.isEmpty then none
      else if port < 1 ∨ 65535 < port then none
      else some { priority := priority, weight := max 0 weight,
                  port := port.toNat, target := target }
    | _, _, _, _ => none

/-- src/srv.ts lines 65: `Math.min(...records.map((record) => record.priority))`. -/
def minPriorityOf : List ParsedSrvRecord → Int
  | [] => 0
  | record :: rest => rest.foldl (fun acc rec => min acc rec.priority) record.priority

/-- src/srv.ts lines 66-68: the records whose priority equals the minimum. -/
def candidatesOf (records : List ParsedSrvRecord) : List ParsedSrvRecord :=
  records.filter (fun rec => rec.priority == minPriorityOf records)

/-- src/srv.ts lines 69-72: `candidates.reduce((sum, record) => sum + record.weight, 0)`. -/
def totalWeightOf (records : List ParsedSrvRecord) : Int :=
  (candidatesOf records).foldl (fun sum rec => sum + rec.weight) 0

/-- src/srv.ts lines 79-84: walk the candidates subtracting each weight from
the roll and return the first candidate that brings the roll to 0 or below. -/
def walkWeighted (roll : ℚ) : List ParsedSrvRecord → Option ParsedSrvRecord
  | [] => none
  | rec :: rest =>
    if roll - (rec.weight : ℚ) ≤ 0 then some rec
    else walkWeighted (roll - (rec.weight : ℚ)) rest

/-- src/srv.ts `pickSrvRecord`. `rand` stands for the value of `Math.random()`,
so the weighted draw is `rand * totalWeight`. A zero-or-negative total weight
deterministically yields the first candidate; the post-walk fallback is the
last candidate. -/
def pickSrvRecord (rand : ℚ) (records : List ParsedSrvRecord) : Option ParsedSrvRecord :=
  if records.isEmpty then none
  else if totalWeightOf records ≤ 0 then (candidatesOf records)[0]?
  else
    match walkWeighted (rand * (totalWeightOf records : ℚ)) (candidatesOf records) with
    | some rec => some rec
    | none => (candidatesOf records).getLast?

/-- src/srv.ts `ResolvedSrvTarget`. -/
structure ResolvedSrvTarget where
  hostname : String
  port : Nat
deriving DecidableEq, Repr

/-- src/srv.ts `DnsJsonResponse` (the `Answer` array may be absent). -/
structure DnsJsonResponse where
  Status : Int
  Answer : Option (List DnsAnswer)

/-- The possible outcomes of the DNS-over-HTTPS exchange performed by
`fetchWithTimeout` and `response.json()`: the fetch may throw (network
error), the abort controller may fire (timeout), the response may carry a
non-success HTTP status (`response.ok` false), the body may fail to parse as
JSON, or a JSON document may be produced. -/
inductive DnsFetchOutcome where
  | networkError
  | timeout
  | httpError (status : Nat)
  | badJson
  | success (result : DnsJsonResponse)

/-- src/srv.ts `resolveMinecraftSrv` body before the enclosing try/catch:
a thrown step is `.error`, a normal return is `.ok`. A non-success HTTP
status returns null without throwing; network errors, timeouts and malformed
JSON throw; otherwise the answers are parsed, filtered and selected. -/
def resolveAttempt (rand : ℚ) : DnsFetchOutcome → Except Unit (Option ResolvedSrvTarget)
  | .networkError => .error ()
  | .timeout => .error ()
  | .httpError _ => .ok none
  | .badJson => .error ()
  | .success result =>
    let answers := result.Answer.getD []
    let parsed := answers.filterMap parseSrvRecord
    match pickSrvRecord rand parsed with
    | none => .ok none
    | some selection => .ok (some { hostname := selection.target, port := selection.port })

/-- src/srv.ts `resolveMinecraftSrv`: the enclosing try/catch collapses every
thrown error to null. The hostname only feeds the query URL, so it does not
influence the modelled outcome. -/
def resolveMinecraftSrv (_hostname : String) (rand : ℚ) (outcome : DnsFetchOutcome) :
    Option ResolvedSrvTarget :=
  match resolveAttempt rand outcome with
  | .error _ => none
  | .ok value => value

/-- src/minecraft.ts `PingOptions` (the timeout field plays no role in the
pure fragment modelled here). -/
structure PingOptions where
  hostname : String
  port : Nat
  serverAddress : String
  protocolVersion : Option Nat
deriving Repr

/-- Worker entry point, lines 103-139: the transport target is the SRV result
when present, otherwise the caller-requested hostname and parsed port; the
`serverAddress` handed to the protocol client is always the original hostname. -/
def buildPingOptions (hostname : String) (parsedPort : Nat)
    (srvTarget : Option ResolvedSrvTarget) (protocolVersion : Option Nat) : PingOptions :=
  let targetHostname := (srvTarget.map ResolvedSrvTarget.hostname).getD hostname
  let targetPort := (srvTarget.map ResolvedSrvTarget.port).getD parsedPort
  { hostname := targetHostname, port := targetPort, serverAddress := hostname,
    protocolVersion := protocolVersion }

/-- src/minecraft.ts lines 169 and 178-180: the handshake written by
`getServerStatus` is built from the options' `serverAddress` and `port`,
with the protocol version defaulted. -/
def handshakeSentByPing (options : PingOptions) : List Nat :=
  buildHandshakePacket options.serverAddress options.port
    (options.protocolVersion.getD DEFAULT_PROTOCOL_VERSION)

/-- The two SRV records of the spec's selection test. -/
def srvRecA : ParsedSrvRecord :=
  { priority := 0, weight := 0, port := 25565, target := "a" }

/-- The positive-weight companion of `srvRecA`. -/
def srvRecB : ParsedSrvRecord :=
  { priority := 0, weight := 100, port := 25566, target := "b" }

/-! ## Lemmas about VarInt decoding -/

theorem decodeVarIntGo_append (l extra : List Nat) (acc count : Nat) (r : Nat × Nat)
    (h : decodeVarIntGo l acc count = .ok r) :
    decodeVarIntGo (l ++ extra) acc count = .ok r := by
  induction l generalizing acc count with
  | nil => simp [decodeVarIntGo] at h
  | cons b rest ih =>
    rw [List.cons_append]
    simp only [decodeVarIntGo] at h ⊢
    by_cases h5 : 5 ≤ count
    · simp [h5] at h
    · simp only [if_neg h5] at h ⊢
      by_cases hb : b < 128
      · simpa [hb] using h
      · simp only [if_neg hb] at h ⊢
        exact ih _ _ h

theorem decodeVarIntGo_count (l : List Nat) (acc count : Nat) (r : Nat × Nat)
    (h : decodeVarIntGo l acc count = .ok r) : count < r.2 := by
  induction l generalizing acc count with
  | nil => simp [decodeVarIntGo] at h
  | cons b rest ih =>
    simp only [decodeVarIntGo] at h
    by_cases h5 : 5 ≤ count
    · simp [h5] at h
    · simp only [if_neg h5] at h
      by_cases hb : b < 128
      · simp only [if_pos hb, Except.ok.injEq] at h
        have := congrArg Prod.snd h
        simp at this
        omega
      · simp only [if_neg hb] at h
        have := ih _ _ h
        omega

theorem decodeVarInt_append (l extra : List Nat) (r : Nat × Nat)
    (h : decodeVarInt l 0 = .ok r) : decodeVarInt (l ++ extra) 0 = .ok r := by
  simp only [decodeVarInt, List.drop_zero] at h ⊢
  cases hgo : decodeVarIntGo l 0 0 with
  | error e => rw [hgo] at h; simp at h
  | ok vc =>
    obtain ⟨v, c⟩ := vc
    rw [hgo] at h
    rw [decodeVarIntGo_append l extra 0 0 (v, c) hgo]
    exact h

theorem decodeVarInt_header_pos (l : List Nat) (r : Nat × Nat)
    (h : decodeVarInt l 0 = .ok r) : 0 < r.2 := by
  simp only [decodeVarInt, List.drop_zero] at h
  cases hgo : decodeVarIntGo l 0 0 with
  | error e => rw [hgo] at h; simp at h
  | ok vc =>
    obtain ⟨v, c⟩ := vc
    rw [hgo] at h
    have hc := decodeVarIntGo_count l 0 0 (v, c) hgo
    simp only [Except.ok.injEq] at h
    have := congrArg Prod.snd h
    simp at this
    omega

/-! ## Lemmas about frame reassembly -/

theorem readPacketGo_assembles (P : List Nat) (n h : Nat)
    (hdec : decodeVarInt P 0 = .ok (n, h)) (hlen : P.length = h + n) :
    ∀ (chunks : List (List Nat)) (buffer : List Nat),
      buffer ++ chunks.flatten = P → buffer.length < P.length →
      readPacketGo buffer chunks = .ok P := by
  intro chunks
  induction chunks with
  | nil =>
    intro buffer hj hl
    simp only [List.flatten_nil, List.append_nil] at hj
    subst hj
    exact absurd hl (lt_irrefl _)
  | cons c rest ih =>
    intro buffer hj hl
    rw [List.flatten_cons, ← List.append_assoc] at hj
    have hlenj := congrArg List.length hj
    simp only [List.length_append] at hlenj
    have hble : (buffer ++ c).length ≤ P.length := by
      rw [List.length_append]
      omega
    rcases Nat.lt_or_ge (buffer ++ c).length P.length with hlt | hge
    · simp only [readPacketGo]
      cases hdb : decodeVarInt (buffer ++ c) 0 with
      | error e => exact ih (buffer ++ c) hj hlt
      | ok vc =>
        obtain ⟨v, cnt⟩ := vc
        have hfull : decodeVarInt P 0 = .ok (v, cnt) := by
          rw [← hj]
          exact decodeVarInt_append _ _ _ hdb
        rw [hdec] at hfull
        simp only [Except.ok.injEq, Prod.mk.injEq] at hfull
        obtain ⟨hv, hcnt⟩ := hfull
        subst hv; subst hcnt
        show (if h + n ≤ (buffer ++ c).length then
            Except.ok (List.take (h + n) (buffer ++ c))
          else readPacketGo (buffer ++ c) rest) = Except.ok P
        rw [if_neg (by omega)]
        exact ih (buffer ++ c) hj hlt
    · have heq : (buffer ++ c).length = P.length := le_antisymm hble hge
      have heq2 : buffer.length + c.length = P.length := by
        have := heq
        rw [List.length_append] at this
        exact this
      have hrest : rest.flatten = [] := List.length_eq_zero.mp (by omega)
      rw [hrest, List.append_nil] at hj
      simp only [readPacketGo]
      rw [hj, hdec]
      show (if h + n ≤ P.length then Except.ok (List.take (h + n) P)
        else readPacketGo P rest) = Except.ok P
      rw [if_pos (by omega)]
      rw [show h + n = P.length from hlen.symm, List.take_length]

/-! ## Lemmas about VarInt encoding -/

theorem encodeVarIntGo_spec (fuel : Nat) :
    ∀ value, value < 128 ^ fuel →
      value < 128 ^ (encodeVarIntGo fuel value).length ∧
      ((encodeVarIntGo fuel value).length = 1 ∨
        128 ^ ((encodeVarIntGo fuel value).length - 1) ≤ value) ∧
      ∃ body final, encodeVarIntGo fuel value = body ++ [final] ∧
        (∀ b ∈ body, 128 ≤ b) ∧ final < 128 := by
  induction fuel with
  | zero =>
    intro value hv
    have hv0 : value = 0 := by simpa using Nat.lt_one_iff.mp (by simpa using hv)
    subst hv0
    refine ⟨by simp [encodeVarIntGo], Or.inl (by simp [encodeVarIntGo]), [], 0, ?_, ?_, ?_⟩
    · simp [encodeVarIntGo]
    · simp
    · omega
  | succ fuel ih =>
    intro value hv
    by_cases hsmall : value < 128
    · refine ⟨?_, ?_, [], value, ?_, ?_, hsmall⟩
      · simp only [encodeVarIntGo, if_pos hsmall, List.length_cons,
          List.length_nil, pow_one]
        exact hsmall
      · left; simp [encodeVarIntGo, hsmall]
      · simp [encodeVarIntGo, hsmall]
      · simp
    · have hq : value / 128 < 128 ^ fuel := by
        rw [Nat.div_lt_iff_lt_mul (by omega)]
        calc value < 128 ^ (fuel + 1) := hv
        _ = 128 ^ fuel * 128 := by rw [Nat.pow_succ]
      obtain ⟨ih1, ih2, body, final, hbf, hball, hfin⟩ := ih (value / 128) hq
      have hunfold : encodeVarIntGo (fuel + 1) value =
          (value % 128 + 128) :: encodeVarIntGo fuel (value / 128) := by
        simp [encodeVarIntGo, hsmall]
      have hlen : (encodeVarIntGo (fuel + 1) value).length =
          (encodeVarIntGo fuel (value / 128)).length + 1 := by
        rw [hunfold]; simp
      have hlen1 : 1 ≤ (encodeVarIntGo fuel (value / 128)).length := by
        rw [hbf]; simp
      have hdm : 128 * (value / 128) + value % 128 = value := Nat.div_add_mod value 128
      have hmod : value % 128 < 128 := Nat.mod_lt value (by omega)
      constructor
      · rw [hlen, Nat.pow_succ]
        have : 128 * (value / 128) + value % 128 <
            128 ^ (encodeVarIntGo fuel (value / 128)).length * 128 := by
          have h128 : 128 * (value / 128) ≤
              128 * (128 ^ (encodeVarIntGo fuel (value / 128)).length - 1) := by
            have : value / 128 ≤ 128 ^ (encodeVarIntGo fuel (value / 128)).length - 1 := by
              omega
            exact Nat.mul_le_mul_left 128 this
          have hpowpos : 1 ≤ 128 ^ (encodeVarIntGo fuel (value / 128)).length :=
            Nat.one_le_two_pow.trans (Nat.pow_le_pow_left (by omega) _)
          omega
        omega
      constructor
      · right
        rw [hlen]
        simp only [Nat.add_sub_cancel]
        rcases ih2 with hone | hge
        · rw [hone]
          omega
        · calc 128 ^ (encodeVarIntGo fuel (value / 128)).length
              = 128 ^ ((encodeVarIntGo fuel (value / 128)).length - 1 + 1) := by
                congr 1; omega
          _ = 128 ^ ((encodeVarIntGo fuel (value / 128)).length - 1) * 128 := by
                rw [Nat.pow_succ]
          _ ≤ value / 128 * 128 := Nat.mul_le_mul_right 128 hge
          _ ≤ value := by
                have := Nat.div_add_mod value 128
                have := Nat.mod_lt value (show 0 < 128 by omega)
                omega
      · refine ⟨(value % 128 + 128) :: body, final, ?_, ?_, hfin⟩
        · rw [hunfold, hbf]; rfl
        · intro b hb
          rcases List.mem_cons.mp hb with hb1 | hb2
          · omega
          · exact hball b hb2

/-! ## Lemmas about SRV selection -/

theorem walkWeighted_mem (l : List ParsedSrvRecord) :
    ∀ (roll : ℚ) (rec : ParsedSrvRecord), walkWeighted roll l = some rec → rec ∈ l := by
  induction l with
  | nil => intro roll rec h; simp [walkWeighted] at h
  | cons r rest ih =>
    intro roll rec h
    simp only [walkWeighted] at h
    by_cases hle : roll - (r.weight : ℚ) ≤ 0
    · rw [if_pos hle] at h
      simp only [Option.some.injEq] at h
      subst h
      exact List.mem_cons_self r rest
    · rw [if_neg hle] at h
      exact List.mem_cons_of_mem r (ih _ _ h)

theorem walkWeighted_pos_weight (l : List ParsedSrvRecord) :
    ∀ (roll : ℚ) (rec : ParsedSrvRecord), 0 < roll → walkWeighted roll l = some rec →
      0 < rec.weight := by
  induction l with
  | nil => intro roll rec _ h; simp [walkWeighted] at h
  | cons r rest ih =>
    intro roll rec hroll h
    simp only [walkWeighted] at h
    by_cases hle : roll - (r.weight : ℚ) ≤ 0
    · rw [if_pos hle] at h
      simp only [Option.some.injEq] at h
      have hq : (0 : ℚ) < (r.weight : ℚ) := by linarith
      rw [← h]
      exact_mod_cast hq
    · rw [if_neg hle] at h
      exact ih _ _ (by linarith) h

/-- The sum of the weights of a record list. -/
def sumWeights : List ParsedSrvRecord → Int
  | [] => 0
  | rec :: rest => rec.weight + sumWeights rest

theorem foldl_add_weights (l : List ParsedSrvRecord) :
    ∀ a : Int, l.foldl (fun sum rec => sum + rec.weight) a = a + sumWeights l := by
  induction l with
  | nil => intro a; simp [sumWeights]
  | cons r rest ih =>
    intro a
    simp only [List.foldl_cons, sumWeights]
    rw [ih]
    omega

theorem totalWeightOf_eq_sumWeights (records : List ParsedSrvRecord) :
    totalWeightOf records = sumWeights (candidatesOf records) := by
  unfold totalWeightOf
  rw [foldl_add_weights]
  omega

theorem walkWeighted_isSome (l : List ParsedSrvRecord) :
    ∀ roll : ℚ, 0 < roll → roll ≤ (sumWeights l : ℚ) →
      ∃ rec, walkWeighted roll l = some rec := by
  induction l with
  | nil =>
    intro roll h0 hle
    simp only [sumWeights, Int.cast_zero] at hle
    linarith
  | cons r rest ih =>
    intro roll h0 hle
    by_cases hstep : roll - (r.weight : ℚ) ≤ 0
    · exact ⟨r, by simp [walkWeighted, hstep]⟩
    · have hsum : (sumWeights (r :: rest) : ℚ) = (r.weight : ℚ) + (sumWeights rest : ℚ) := by
        simp [sumWeights]
      obtain ⟨rec, hrec⟩ := ih (roll - (r.weight : ℚ)) (by linarith) (by
        rw [hsum] at hle
        linarith)
      exact ⟨rec, by simp [walkWeighted, hstep, hrec]⟩

theorem minPriorityOf_attained (records : List ParsedSrvRecord) (hne : records ≠ []) :
    ∃ x ∈ records, x.priority = minPriorityOf records := by
  have key : ∀ (l : List ParsedSrvRecord) (a : Int),
      l.foldl (fun acc rec => min acc rec.priority) a = a ∨
      ∃ x ∈ l, l.foldl (fun acc rec => min acc rec.priority) a = x.priority := by
    intro l
    induction l with
    | nil => intro a; left; rfl
    | cons r rest ih =>
      intro a
      simp only [List.foldl_cons]
      rcases ih (min a r.priority) with hl | ⟨x, hx, hfold⟩
      · rw [hl]
        rcases le_total a r.priority with hle | hle
        · left; exact min_eq_left hle
        · right
          exact ⟨r, List.mem_cons_self r rest, min_eq_right hle⟩
      · right
        exact ⟨x, List.mem_cons_of_mem r hx, hfold⟩
  match records, hne with
  | r :: rest, _ =>
    unfold minPriorityOf
    rcases key rest r.priority with hl | ⟨x, hx, hfold⟩
    · exact ⟨r, List.mem_cons_self r rest, hl.symm⟩
    · exact ⟨x, List.mem_cons_of_mem r hx, hfold.symm⟩

theorem candidatesOf_ne_nil (records : List ParsedSrvRecord) (hne : records ≠ []) :
    candidatesOf records ≠ [] := by
  obtain ⟨x, hx, hpr⟩ := minPriorityOf_attained records hne
  exact List.ne_nil_of_mem (List.mem_filter.mpr ⟨hx, by simp [hpr]⟩)

/-! ## Claims -/

/-- C2, counterexample: the handshake packet for protocolVersion 765,
serverAddress "localhost", port 25565 is not the spec's byte sequence
10 00 f9 05 09 6c 6f 63 61 6c 68 6f 73 74 63 dd 01 — the VarInt group bytes
of 765 are fd 05 (125 + 5·128 = 765), not f9 05 (which encodes 761). -/
theorem handshake_bytes_not_f9 :
    buildHandshakePacket "localhost" 25565 765 ≠
      [16, 0, 249, 5, 9, 108, 111, 99, 97, 108, 104, 111, 115, 116, 99, 221, 1] := by
  decide

/-- C2, amended: building the handshake packet with protocolVersion 765,
serverAddress "localhost", port 25565 produces exactly the 17-byte sequence
10 00 fd 05 09 6c 6f 63 61 6c 68 6f 73 74 63 dd 01. -/
theorem handshake_localhost_bytes :
    buildHandshakePacket "localhost" 25565 765 =
      [16, 0, 253, 5, 9, 108, 111, 99, 97, 108, 104, 111, 115, 116, 99, 221, 1] := by
  decide

/-- C8: for each of the ten listed integers, decoding the encoding at offset 0
yields the value together with the byte length of the encoding. -/
theorem varint_roundtrip_listed_values :
    decodeVarInt (encodeVarInt 0) 0 = .ok (0, (encodeVarInt 0).length) ∧
    decodeVarInt (encodeVarInt 1) 0 = .ok (1, (encodeVarInt 1).length) ∧
    decodeVarInt (encodeVarInt 127) 0 = .ok (127, (encodeVarInt 127).length) ∧
    decodeVarInt (encodeVarInt 128) 0 = .ok (128, (encodeVarInt 128).length) ∧
    decodeVarInt (encodeVarInt 16383) 0 = .ok (16383, (encodeVarInt 16383).length) ∧
    decodeVarInt (encodeVarInt 16384) 0 = .ok (16384, (encodeVarInt 16384).length) ∧
    decodeVarInt (encodeVarInt 2097151) 0 = .ok (2097151, (encodeVarInt 2097151).length) ∧
    decodeVarInt (encodeVarInt 2097152) 0 = .ok (2097152, (encodeVarInt 2097152).length) ∧
    decodeVarInt (encodeVarInt 268435455) 0 = .ok (268435455, (encodeVarInt 268435455).length) ∧
    decodeVarInt (encodeVarInt 2147483647) 0 = .ok (2147483647, (encodeVarInt 2147483647).length) :=
  ⟨rfl, rfl, rfl, rfl, rfl, rfl, rfl, rfl, rfl, rfl⟩

/-- C4, counterexample: the decoder does flag a six-byte VarInt as the fatal
`tooLong` error, distinct from `needMoreData`, yet the packet reader swallows
that fatal error: fed an overlong length prefix followed by a further chunk it
keeps accumulating and ends with `connectionClosed`, never a protocol
violation. -/
theorem reader_swallows_overlong_varint :
    decodeVarInt [128, 128, 128, 128, 128, 128] 0 = .error .tooLong ∧
    decodeVarInt [128, 128, 128] 0 = .error .needMoreData ∧
    readPacket [[128, 128, 128, 128, 128, 128], [0]] = .error .connectionClosed :=
  ⟨rfl, rfl, rfl⟩

/-- C4, amended: VarInt decode has two distinguishable failure outcomes
(`needMoreData` on a buffer ending before a terminating byte, `tooLong` on a
sixth byte), but the inbound packet reader treats every length-prefix decode
failure alike: whatever the error, it appends the chunk and keeps
accumulating instead of failing. -/
theorem reader_continues_on_any_decode_error (buffer chunk : List Nat)
    (rest : List (List Nat)) (e : DecodeError)
    (hdecode : decodeVarInt (buffer ++ chunk) 0 = .error e) :
    readPacketGo buffer (chunk :: rest) = readPacketGo (buffer ++ chunk) rest := by
  simp only [readPacketGo, hdecode]

/-- Witness for the amended C4 at a concrete overlong prefix. -/
theorem reader_continues_on_any_decode_error_witness :
    decodeVarInt ([] ++ [128, 128, 128, 128, 128, 128]) 0 = .error DecodeError.tooLong ∧
    readPacketGo [] ([128, 128, 128, 128, 128, 128] :: [[0]]) =
      readPacketGo ([] ++ [128, 128, 128, 128, 128, 128]) [[0]] :=
  ⟨rfl, reader_continues_on_any_decode_error [] [128, 128, 128, 128, 128, 128] [[0]]
    DecodeError.tooLong rfl⟩

/-- C5: for every value representable in 32 bits, encoding succeeds and is the
minimal 7-payload-bits-per-byte continuation sequence: at most 5 bytes, one
byte for 0..127, two bytes for 128..16383, the value bounded by 128^length
with the top group non-zero (no padding), every byte but the last carrying the
continuation bit and the last clear of it. -/
theorem encode_minimal_32bit (value : Nat) (hvalue : value < 4294967296) :
    (encodeVarInt value).length ≤ 5 ∧
    (value < 128 → (encodeVarInt value).length = 1) ∧
    (128 ≤ value → value < 16384 → (encodeVarInt value).length = 2) ∧
    value < 128 ^ (encodeVarInt value).length ∧
    ((encodeVarInt value).length = 1 ∨ 128 ^ ((encodeVarInt value).length - 1) ≤ value) ∧
    ∃ body final, encodeVarInt value = body ++ [final] ∧
      (∀ b ∈ body, 128 ≤ b) ∧ final < 128 := by
  have h5 : value < 128 ^ 5 := by
    have : (4294967296 : Nat) < 128 ^ 5 := by norm_num
    omega
  obtain ⟨h1, h2, body, final, hbf, hball, hfin⟩ := encodeVarIntGo_spec 5 value h5
  have heq : encodeVarInt value = encodeVarIntGo 5 value := rfl
  rw [heq]
  have hlen1 : 1 ≤ (encodeVarIntGo 5 value).length := by
    rw [hbf]; simp
  have hmono : ∀ a b : Nat, 128 ^ a < 128 ^ b → a < b := fun a b hab =>
    (Nat.pow_lt_pow_iff_right (by omega)).mp hab
  have hmono2 : ∀ a b : Nat, a ≤ b → 128 ^ a ≤ 128 ^ b :=
    fun a b hab => Nat.pow_le_pow_right (by omega) hab
  refine ⟨?_, ?_, ?_, h1, h2, body, final, hbf, hball, hfin⟩
  · rcases h2 with hone | hge
    · omega
    · have : (encodeVarIntGo 5 value).length - 1 < 5 := hmono _ _ (by omega)
      omega
  · intro hsmall
    rcases h2 with hone | hge
    · exact hone
    · by_contra hne
      have h2le : 2 ≤ (encodeVarIntGo 5 value).length := by omega
      have : (128 : Nat) ^ 1 ≤ 128 ^ ((encodeVarIntGo 5 value).length - 1) :=
        hmono2 _ _ (by omega)
      simp only [pow_one] at this
      omega
  · intro hge128 hlt16384
    have hne1 : (encodeVarIntGo 5 value).length ≠ 1 := by
      intro h1eq
      rw [h1eq] at h1
      simp only [pow_one] at h1
      omega
    rcases h2 with hone | hge
    · exact absurd hone hne1
    · have hlt : 128 ^ ((encodeVarIntGo 5 value).length - 1) < 128 ^ 2 := by
        calc 128 ^ ((encodeVarIntGo 5 value).length - 1) ≤ value := hge
        _ < 16384 := hlt16384
        _ = 128 ^ 2 := by norm_num
      have := hmono _ _ hlt
      omega

/-- Witness for C5 at value 300 (encoded as ac 02). -/
theorem encode_minimal_32bit_witness :
    (encodeVarInt 300).length ≤ 5 ∧
    (300 < 128 → (encodeVarInt 300).length = 1) ∧
    (128 ≤ 300 → 300 < 16384 → (encodeVarInt 300).length = 2) ∧
    300 < 128 ^ (encodeVarInt 300).length ∧
    ((encodeVarInt 300).length = 1 ∨ 128 ^ ((encodeVarInt 300).length - 1) ≤ 300) ∧
    ∃ body final, encodeVarInt 300 = body ++ [final] ∧
      (∀ b ∈ body, 128 ≤ b) ∧ final < 128 :=
  encode_minimal_32bit 300 (by norm_num)

/-- C7: frame reassembly is chunking-invariant. For every valid packet (its
length VarInt decodes to `n` consuming `h` bytes and the packet holds exactly
`h + n` bytes) and every partition of its bytes into chunks, the reader
returns exactly that packet, the same as for the unsplit byte sequence;
length-VarInt decode failures on incomplete prefixes only make it keep
accumulating. -/
theorem reader_chunking_invariant (P : List Nat) (chunks : List (List Nat)) (n h : Nat)
    (hvalid : ValidPacket P n h) (hchunks : chunks.flatten = P) :
    readPacket chunks = .ok P ∧ readPacket [P] = .ok P := by
  obtain ⟨hdec, hlen⟩ := hvalid
  have hpos : 0 < h := by
    have := decodeVarInt_header_pos P (n, h) hdec
    simpa using this
  have hPlen : 0 < P.length := by omega
  constructor
  · exact readPacketGo_assembles P n h hdec hlen chunks []
      (by simpa using hchunks) (by simpa using hPlen)
  · exact readPacketGo_assembles P n h hdec hlen [P] [] (by simp) (by simpa using hPlen)

/-- Witness for C7: the packet 01 2a split into single bytes. -/
theorem reader_chunking_invariant_witness :
    readPacket [[1], [42]] = .ok [1, 42] ∧ readPacket [[1, 42]] = .ok [1, 42] :=
  reader_chunking_invariant [1, 42] [[1], [42]] 1 1 ⟨rfl, rfl⟩ rfl

/-- C1, counterexample: with hostname play.example.com, no explicit port
(parsed port 25565) and the SRV result backend.example.com:25566, the
handshake actually written carries the SRV-resolved port 25566, and is not
the packet that encodes the original caller-requested port 25565. -/
theorem handshake_uses_srv_port :
    handshakeSentByPing (buildPingOptions "play.example.com" 25565
        (some { hostname := "backend.example.com", port := 25566 }) none) =
      buildHandshakePacket "play.example.com" 25566 765 ∧
    handshakeSentByPing (buildPingOptions "play.example.com" 25565
        (some { hostname := "backend.example.com", port := 25566 }) none) ≠
      buildHandshakePacket "play.example.com" 25565 765 := by
  exact ⟨rfl, by decide⟩

/-- C1, amended: the handshake always encodes the original caller-supplied
hostname as serverAddress, but its port field is the transport port — the
SRV-resolved port when SRV resolution produced a target, otherwise the
caller-requested (or default) port. -/
theorem handshake_address_original_port_transport (hostname : String) (parsedPort : Nat)
    (srvTarget : Option ResolvedSrvTarget) (protocolVersion : Option Nat) :
    (buildPingOptions hostname parsedPort srvTarget protocolVersion).serverAddress =
      hostname ∧
    handshakeSentByPing (buildPingOptions hostname parsedPort srvTarget protocolVersion) =
      buildHandshakePacket hostname
        ((srvTarget.map ResolvedSrvTarget.port).getD parsedPort)
        (protocolVersion.getD DEFAULT_PROTOCOL_VERSION) :=
  ⟨rfl, rfl⟩

/-- C3, counterexample: with the tied-at-minimum-priority candidates
[weight 0, weight 100] the total weight is positive, so the weighted draw path
is taken; yet when the uniform draw is exactly 0 (a possible value of
`[0, totalWeight)`), the walk returns the weight-0 record. -/
theorem weighted_draw_picks_zero_weight_at_zero :
    0 < totalWeightOf [srvRecA, srvRecB] ∧ srvRecA.weight = 0 ∧
    pickSrvRecord 0 [srvRecA, srvRecB] = some srvRecA := by
  refine ⟨by decide, by decide, ?_⟩
  norm_num [pickSrvRecord, candidatesOf, minPriorityOf, totalWeightOf, walkWeighted,
    srvRecA, srvRecB]

/-- C3, amended: when the tied-at-minimum-priority candidates have strictly
positive total weight, every strictly positive random draw (rand in (0,1), so
a draw in (0, totalWeight)) returns a record of strictly positive weight; a
weight-0 record can be returned by the weighted walk only at draw exactly 0,
or via the zero-total-weight fallback path. -/
theorem weighted_draw_positive_weight (rand : ℚ) (records : List ParsedSrvRecord)
    (rec : ParsedSrvRecord) (hrand0 : 0 < rand) (hrand1 : rand < 1)
    (htotal : 0 < totalWeightOf records)
    (hpick : pickSrvRecord rand records = some rec) : 0 < rec.weight := by
  unfold pickSrvRecord at hpick
  by_cases hie : records.isEmpty
  · rw [if_pos hie] at hpick
    exact absurd hpick (by simp)
  · rw [if_neg hie, if_neg (by omega)] at hpick
    have hcastpos : (0 : ℚ) < (totalWeightOf records : ℚ) := by exact_mod_cast htotal
    have hroll0 : (0 : ℚ) < rand * (totalWeightOf records : ℚ) := mul_pos hrand0 hcastpos
    cases hwalk : walkWeighted (rand * (totalWeightOf records : ℚ)) (candidatesOf records) with
    | some r =>
      rw [hwalk] at hpick
      simp only [Option.some.injEq] at hpick
      rw [← hpick]
      exact walkWeighted_pos_weight (candidatesOf records) _ r hroll0 hwalk
    | none =>
      have hle : rand * (totalWeightOf records : ℚ) ≤
          (sumWeights (candidatesOf records) : ℚ) := by
        rw [← totalWeightOf_eq_sumWeights]
        calc rand * (totalWeightOf records : ℚ) ≤ 1 * (totalWeightOf records : ℚ) :=
          mul_le_mul_of_nonneg_right (le_of_lt hrand1) (le_of_lt hcastpos)
        _ = (totalWeightOf records : ℚ) := one_mul _
      obtain ⟨r, hr⟩ := walkWeighted_isSome (candidatesOf records) _ hroll0 hle
      rw [hwalk] at hr
      exact absurd hr (by simp)

/-- Witness for the amended C3: draw one half of the total weight picks the
weight-100 record, which indeed has positive weight. -/
theorem weighted_draw_positive_weight_witness :
    (0 : ℚ) < 1 / 2 ∧ (1 : ℚ) / 2 < 1 ∧ 0 < totalWeightOf [srvRecA, srvRecB] ∧
    pickSrvRecord (1 / 2) [srvRecA, srvRecB] = some srvRecB ∧ 0 < srvRecB.weight := by
  have hpick : pickSrvRecord (1 / 2) [srvRecA, srvRecB] = some srvRecB := by
    norm_num [pickSrvRecord, candidatesOf, minPriorityOf, totalWeightOf, walkWeighted,
      srvRecA, srvRecB]
  exact ⟨by norm_num, by norm_num, by decide, hpick,
    weighted_draw_positive_weight (1 / 2) [srvRecA, srvRecB] srvRecB (by norm_num)
      (by norm_num) (by decide) hpick⟩

/-- C10: for every non-empty record list and every random draw, selection
returns some record that is an element of the input list — the first
candidate on the zero-total-weight path, a walked candidate, or the last
candidate as final fallback. -/
theorem selection_returns_member (rand : ℚ) (records : List ParsedSrvRecord)
    (hne : records ≠ []) :
    ∃ rec, pickSrvRecord rand records = some rec ∧ rec ∈ records := by
  have hie : ¬ records.isEmpty = true := by
    simpa [List.isEmpty_iff] using hne
  have hcne := candidatesOf_ne_nil records hne
  have hmemof : ∀ rec, rec ∈ candidatesOf records → rec ∈ records := by
    intro rec hmem
    unfold candidatesOf at hmem
    exact (List.mem_filter.mp hmem).1
  unfold pickSrvRecord
  rw [if_neg hie]
  by_cases hw : totalWeightOf records ≤ 0
  · rw [if_pos hw]
    obtain ⟨c, cs, hc⟩ : ∃ c cs, candidatesOf records = c :: cs := by
      cases hcand : candidatesOf records with
      | nil => exact absurd hcand hcne
      | cons c cs => exact ⟨c, cs, rfl⟩
    rw [hc]
    exact ⟨c, by simp, hmemof c (by rw [hc]; exact List.mem_cons_self c cs)⟩
  · rw [if_neg hw]
    cases hwalk : walkWeighted (rand * (totalWeightOf records : ℚ)) (candidatesOf records) with
    | some r =>
      exact ⟨r, rfl, hmemof r (walkWeighted_mem (candidatesOf records) _ r hwalk)⟩
    | none =>
      exact ⟨(candidatesOf records).getLast hcne,
        List.getLast?_eq_getLast_of_ne_nil hcne, hmemof _ (List.getLast_mem hcne)⟩

/-- Witness for C10 on the singleton list containing the weight-100 record. -/
theorem selection_returns_member_witness :
    [srvRecB] ≠ [] ∧ ∃ rec, pickSrvRecord 0 [srvRecB] = some rec ∧ rec ∈ [srvRecB] :=
  ⟨by decide, selection_returns_member 0 [srvRecB] (by decide)⟩

/-- C6: the SRV resolver absorbs every failure mode of the DNS-over-HTTPS
exchange — network error, timeout, non-success HTTP status, malformed JSON,
and an empty or entirely invalid answer set — returning the no-target result;
by construction `resolveMinecraftSrv` is a total function, so no exception
reaches its caller. -/
theorem resolver_absorbs_failures (hostname : String) (rand : ℚ) (status : Nat)
    (result : DnsJsonResponse) :
    resolveMinecraftSrv hostname rand .networkError = none ∧
    resolveMinecraftSrv hostname rand .timeout = none ∧
    resolveMinecraftSrv hostname rand (.httpError status) = none ∧
    resolveMinecraftSrv hostname rand .badJson = none ∧
    ((result.Answer.getD []).filterMap parseSrvRecord = [] →
      resolveMinecraftSrv hostname rand (.success result) = none) := by
  refine ⟨rfl, rfl, rfl, rfl, ?_⟩
  intro hparsed
  simp [resolveMinecraftSrv, resolveAttempt, hparsed, pickSrvRecord]

/-- Witness for C6 at concrete inputs, including a JSON document with an
absent answer set. -/
theorem resolver_absorbs_failures_witness :
    resolveMinecraftSrv "example.com" 0 .networkError = none ∧
    resolveMinecraftSrv "example.com" 0 .timeout = none ∧
    resolveMinecraftSrv "example.com" 0 (.httpError 500) = none ∧
    resolveMinecraftSrv "example.com" 0 .badJson = none ∧
    resolveMinecraftSrv "example.com" 0
      (.success { Status := 0, Answer := none }) = none := by
  have h := resolver_absorbs_failures "example.com" 0 500 { Status := 0, Answer := none }
  exact ⟨h.1, h.2.1, h.2.2.1, h.2.2.2.1, h.2.2.2.2 rfl⟩
